import Mathlib

/-!
Verification of the blockchain ledger implemented in `app.py`.

The development shallowly embeds the core classes (`Transaction`, `Block`,
`Blockchain`) and the ledger operations (`add_transaction`,
`mine_pending_transactions`, `mine_block`, `is_chain_valid`, `get_balance`,
`register_node`, `resolve_conflicts`) as executable Lean definitions.

Modelling conventions:
 - `calculate_hash` in the source is SHA-256 over a canonical JSON encoding of
   the five hashed fields (index, transactions, timestamp, previous_hash,
   nonce).  The digest internals are irrelevant to the control-flow properties
   verified here, so every definition is parameterised by an abstract hash
   function `HashFn` taking exactly those five fields.  Concrete witnesses
   instantiate it with an explicit computable function.
 - Python float amounts and timestamps are modelled with exact integers
   (`Int` / `Nat`); the verified properties only use ordering and addition.
 - The lazily cached `_hash` attribute of `Block` is the `hashCache` field;
   the `hash` property is `Block.hash`, returning the cache when set and the
   recomputed digest otherwise.
 - The unbounded proof-of-work loop in `mine_block` is given explicit fuel
   and returns `none` when the fuel runs out (the Python loop would still be
   running); `some` results correspond exactly to terminating runs.
 - Network fetches in `resolve_conflicts` are supplied as a list of optional
   `PeerResponse` values: `none` models an unreachable peer (the swallowed
   `requests.RequestException`), `some r` a 200 response with its decoded
   self-reported `length` field and `chain` list.
-/

/-- Transactions (`Transaction.__init__`): the mining-reward sentinel sender
`None` is modelled as `Option.none`. -/
structure Transaction where
  sender : Option String
  recipient : String
  amount : Int
  timestamp : Nat
  deriving DecidableEq

/-- Abstract stand-in for `Block.calculate_hash`'s digest: a function of the
five hashed fields (index, transactions, timestamp, previous_hash, nonce). -/
abbrev HashFn := Nat → List Transaction → Nat → String → Nat → String

/-- Blocks (`Block.__init__`); `hashCache` models the `_hash` attribute. -/
structure Block where
  index : Nat
  transactions : List Transaction
  timestamp : Nat
  previous_hash : String
  nonce : Nat
  hashCache : Option String
  deriving DecidableEq

/-- `Block.calculate_hash`: the digest of the five content fields (never of
the cache). -/
def calculate_hash (h : HashFn) (b : Block) : String :=
  h b.index b.transactions b.timestamp b.previous_hash b.nonce

/-- The `Block.hash` property: the cached value when present, otherwise the
recomputed digest. -/
def Block.hash (h : HashFn) (b : Block) : String :=
  b.hashCache.getD (calculate_hash h b)

/-- Python string slicing `s[:n]` (by characters). -/
def str_take (s : String) (n : Nat) : String :=
  String.mk (s.data.take n)

/-- The proof-of-work target `"0" * difficulty`. -/
def zeros (d : Nat) : String :=
  String.mk (List.replicate d '0')

/-- The `Blockchain` state: chain, pending pool, difficulty, reward, peers. -/
structure Blockchain where
  chain : List Block
  current_transactions : List Transaction
  difficulty : Nat
  mining_reward : Int
  nodes : List String
  deriving DecidableEq

/-- `Blockchain.create_genesis_block`: `Block(0, [], time.time(), "0")` with
`_hash` set to the computed digest. -/
def create_genesis_block (h : HashFn) (t : Nat) : Block :=
  let genesis_block : Block :=
    { index := 0, transactions := [], timestamp := t, previous_hash := "0",
      nonce := 0, hashCache := none }
  { genesis_block with hashCache := some (calculate_hash h genesis_block) }

/-- `Blockchain.__init__`: empty pool, difficulty 4, reward 10, no peers, and
the genesis block appended. -/
def Blockchain.init (h : HashFn) (t : Nat) : Blockchain :=
  { chain := [create_genesis_block h t], current_transactions := [],
    difficulty := 4, mining_reward := 10, nodes := [] }

/-- `Blockchain.get_latest_block`: `self.chain[-1]`; `none` models the
`IndexError` on an empty chain. -/
def get_latest_block (s : Blockchain) : Option Block :=
  s.chain.getLast?

/-- The body of the validation loop of `Blockchain.is_chain_valid` for one
adjacent pair: recomputed-hash check, linkage check, proof-of-work check. -/
def valid_pair (h : HashFn) (d : Nat) (previous_block current_block : Block) : Bool :=
  decide (Block.hash h current_block = calculate_hash h current_block) &&
  decide (current_block.previous_hash = Block.hash h previous_block) &&
  decide (str_take (Block.hash h current_block) d = zeros d)

/-- The loop of `Blockchain.is_chain_valid` over `range(1, len(chain))`. -/
def chain_valid (h : HashFn) (d : Nat) : List Block → Bool
  | [] => true
  | [_] => true
  | previous_block :: current_block :: rest =>
    valid_pair h d previous_block current_block &&
      chain_valid h d (current_block :: rest)

/-- `Blockchain.is_chain_valid(chain=None)`: validates the given chain, or the
ledger's own chain when the argument is omitted, at the ledger's difficulty. -/
def is_chain_valid (h : HashFn) (s : Blockchain) (chain : Option (List Block)) : Bool :=
  chain_valid h s.difficulty (chain.getD s.chain)

/-- `Blockchain.add_transaction`: appends the transaction to the pending pool
unconditionally and returns `get_latest_block().index + 1` (`none` models the
`IndexError` on an empty chain).  The source performs no amount validation
here. -/
def add_transaction (s : Blockchain) (sender : Option String) (recipient : String)
    (amount : Int) (t : Nat) : Blockchain × Option Nat :=
  let s' := { s with
    current_transactions :=
      s.current_transactions ++ [⟨sender, recipient, amount, t⟩] }
  (s', (get_latest_block s').map fun b => b.index + 1)

/-- `Blockchain.get_balance`: folds over every transaction of every sealed
block, subtracting the amount when the sender matches and adding it when the
recipient matches.  The dict/object double branch of the source performs the
same comparisons on the same four fields and collapses to this single
traversal. -/
def get_balance (s : Blockchain) (address : String) : Int :=
  s.chain.foldl
    (fun balance block =>
      block.transactions.foldl
        (fun balance transaction =>
          let balance :=
            if transaction.sender = some address then balance - transaction.amount
            else balance
          if transaction.recipient = address then balance + transaction.amount
          else balance)
        balance)
    0

/-- The net effect of one transaction on an address's balance. -/
def tx_delta (address : String) (t : Transaction) : Int :=
  (if t.recipient = address then t.amount else 0) -
    (if t.sender = some address then t.amount else 0)

/-- Sum of amounts received by an address over a transaction list. -/
def recipient_sum (address : String) (l : List Transaction) : Int :=
  ((l.filter fun t => decide (t.recipient = address)).map Transaction.amount).sum

/-- Sum of amounts sent by an address over a transaction list. -/
def sender_sum (address : String) (l : List Transaction) : Int :=
  ((l.filter fun t => decide (t.sender = some address)).map Transaction.amount).sum

/-- The POST branch of the `/api/transactions` route: rejects non-positive
amounts, self-payments, and (for non-reward senders) amounts above the current
balance, before calling `add_transaction`; `none` in the second component
models the HTTP 400 response. -/
def api_transactions_post (s : Blockchain) (sender recipient : String)
    (amount : Int) (t : Nat) : Blockchain × Option Nat :=
  if amount ≤ 0 then (s, none)
  else if sender = recipient then (s, none)
  else if sender ≠ "Mining Reward" ∧ get_balance s sender < amount then (s, none)
  else add_transaction s (some sender) recipient amount t

/-- `Blockchain.mine_block`: the proof-of-work search.  Each iteration tests
the block's hash against the target and, on failure, increments the nonce and
clears the cache.  `fuel` bounds the number of increments; `none` models a
run that is still searching. -/
def mine_block (h : HashFn) (d : Nat) (fuel : Nat) (b : Block) : Option Block :=
  if str_take (Block.hash h b) d = zeros d then
    some { b with hashCache := some (Block.hash h b) }
  else
    match fuel with
    | 0 => none
    | f + 1 => mine_block h d f { b with nonce := b.nonce + 1, hashCache := none }

/-- `Blockchain.mine_pending_transactions`: appends the reward transaction to
the pool, builds the candidate block at index `len(chain)` on top of the tip,
runs the proof-of-work search, then appends the sealed block and clears the
pool.  The source performs no empty-pool check here. -/
def mine_pending_transactions (h : HashFn) (fuel : Nat) (s : Blockchain)
    (mining_reward_address : String) (t1 t2 : Nat) : Option (Blockchain × Block) :=
  match get_latest_block s with
  | none => none
  | some tip =>
    match mine_block h s.difficulty fuel
        ⟨s.chain.length,
         s.current_transactions ++ [⟨none, mining_reward_address, s.mining_reward, t1⟩],
         t2, Block.hash h tip, 0, none⟩ with
    | none => none
    | some b =>
      some ({ s with chain := s.chain ++ [b], current_transactions := [] }, b)

/-- The `/api/mine` route: rejects with HTTP 400 (`none`) when the pending
pool is empty, otherwise calls `mine_pending_transactions`. -/
def api_mine (h : HashFn) (fuel : Nat) (s : Blockchain) (addr : String)
    (t1 t2 : Nat) : Option (Blockchain × Block) :=
  if s.current_transactions.isEmpty then none
  else mine_pending_transactions h fuel s addr t1 t2

/-- `Blockchain.register_node`, with `urlparse` abstracted to its two outputs:
adds the netloc when present, else the path, else fails (`ValueError`). -/
def register_node (s : Blockchain) (netloc path : String) : Option Blockchain :=
  if netloc ≠ "" then some { s with nodes := s.nodes.insert netloc }
  else if path ≠ "" then some { s with nodes := s.nodes.insert path }
  else none

/-- One decoded block record of a peer's `/api/chain` response. -/
structure BlockData where
  index : Nat
  transactions : List Transaction
  timestamp : Nat
  previous_hash : String
  nonce : Nat
  hash : String
  deriving DecidableEq

/-- One successful peer response: the self-reported `length` field and the
decoded `chain` list. -/
structure PeerResponse where
  length : Nat
  chain : List BlockData
  deriving DecidableEq

/-- The block reconstruction inside `resolve_conflicts`: a `Block` whose
`_hash` is set to the transmitted `hash` field. -/
def block_of_data (d : BlockData) : Block :=
  ⟨d.index, d.transactions, d.timestamp, d.previous_hash, d.nonce, some d.hash⟩

/-- One iteration of the peer loop of `resolve_conflicts`: an unreachable
peer (`none`) is skipped; a response is accepted as the new best candidate
when its reported `length` exceeds the running `max_length` and its decoded
chain validates. -/
def consider_response (h : HashFn) (d : Nat) (acc : Nat × Option (List Block))
    (r : Option PeerResponse) : Nat × Option (List Block) :=
  match r with
  | none => acc
  | some resp =>
    if acc.1 < resp.length ∧
        chain_valid h d (resp.chain.map block_of_data) = true then
      (resp.length, some (resp.chain.map block_of_data))
    else acc

/-- `Blockchain.resolve_conflicts`: fold the peer loop starting from
`max_length = len(self.chain)`, then replace the chain when a candidate was
recorded.  `if new_chain:` in Python is falsy both for `None` and for the
empty list, so an empty recorded candidate does not replace. -/
def resolve_conflicts (h : HashFn) (s : Blockchain)
    (responses : List (Option PeerResponse)) : Blockchain × Bool :=
  match (responses.foldl (consider_response h s.difficulty)
      (s.chain.length, none)).2 with
  | some new_chain =>
    if new_chain.isEmpty then (s, false)
    else ({ s with chain := new_chain }, true)
  | none => (s, false)

/-- The states reachable from construction through the ledger's mutating
operations (the read-only operations `is_chain_valid`, `get_balance` and
`get_latest_block` do not alter the state). -/
inductive Reachable (h : HashFn) : Blockchain → Prop
  | init (t : Nat) : Reachable h (Blockchain.init h t)
  | add_tx (s : Blockchain) (sender : Option String) (recipient : String)
      (amount : Int) (t : Nat) :
      Reachable h s → Reachable h (add_transaction s sender recipient amount t).1
  | mine (s s' : Blockchain) (b : Block) (fuel : Nat) (addr : String) (t1 t2 : Nat) :
      Reachable h s → mine_pending_transactions h fuel s addr t1 t2 = some (s', b) →
      Reachable h s'
  | register (s s' : Blockchain) (netloc path : String) :
      Reachable h s → register_node s netloc path = some s' → Reachable h s'
  | resolve (s : Blockchain) (rs : List (Option PeerResponse)) :
      Reachable h s → Reachable h (resolve_conflicts h s rs).1

/-- A concrete hash function used to evaluate the model on explicit inputs. -/
def constHash : HashFn := fun _ _ _ _ _ => "0000"

/-- The genesis block produced by `constHash` at time 0. -/
def gBlock : Block :=
  ⟨0, [], 0, "0", 0, some "0000"⟩

/-- The freshly constructed ledger under `constHash`. -/
def sInit : Blockchain := Blockchain.init constHash 0

/-- A decoded remote block; as the only block of its chain it is never
subjected to any pair check. -/
def dOne : BlockData :=
  ⟨0, [], 0, "x", 0, "abcd"⟩

/-- A peer response reporting length 5 while carrying a single block. -/
def respOneBlock : PeerResponse :=
  ⟨5, [dOne]⟩

/-- A peer response reporting length 5 while carrying no blocks at all. -/
def respEmpty : PeerResponse :=
  ⟨5, []⟩

/-- A peer response reporting length 0 (never better than a real chain). -/
def respZero : PeerResponse :=
  ⟨0, [dOne]⟩

/-- The block mined from the empty pool by `constHash` (reward only). -/
def bMinedEmpty : Block :=
  ⟨1, [⟨none, "addr1", 10, 0⟩], 1, "0000", 0, some "0000"⟩

/-- The ledger state after mining the empty pool of `sInit`. -/
def sMinedEmpty : Blockchain :=
  ⟨[gBlock, bMinedEmpty], [], 4, 10, []⟩

/-- A sample pending transaction. -/
def txAB : Transaction :=
  ⟨some "A", "B", 5, 0⟩

/-- `sInit` after submitting `txAB`. -/
def sPend : Blockchain :=
  ⟨[gBlock], [txAB], 4, 10, []⟩

/-- The block mined from `sPend` by `constHash`. -/
def bMinedPend : Block :=
  ⟨1, [txAB, ⟨none, "addr1", 10, 2⟩], 3, "0000", 0, some "0000"⟩

/-- The ledger state after mining `sPend`. -/
def sMinedPend : Blockchain :=
  ⟨[gBlock, bMinedPend], [], 4, 10, []⟩

/-- A sealed block carrying one payment from "A" to "B". -/
def blkAB : Block :=
  ⟨1, [txAB], 0, "p", 0, some "h1"⟩

/-- A sealed block carrying one payment from "B" to "C". -/
def blkBC : Block :=
  ⟨2, [⟨some "B", "C", 2, 0⟩], 0, "q", 0, some "h2"⟩

/-- A ledger holding the two payment blocks in one order... -/
def sOrd : Blockchain :=
  ⟨[blkAB, blkBC], [], 4, 10, []⟩

/-- ...and the same blocks in the opposite order. -/
def sRev : Blockchain :=
  ⟨[blkBC, blkAB], [], 4, 10, []⟩

/-- `chain_valid` is exactly the pairwise-adjacent condition. -/
theorem chain_valid_iff (h : HashFn) (d : Nat) (l : List Block) :
    chain_valid h d l = true ↔
      List.Chain' (fun p q => valid_pair h d p q = true) l := by
  induction l with
  | nil => simp [chain_valid]
  | cons a l ih =>
    cases l with
    | nil => simp [chain_valid]
    | cons b l' =>
      simp [chain_valid, List.chain'_cons, Bool.and_eq_true] at ih ⊢
      exact fun _ => ih

/-- C10: validation of a chain with at most one block checks nothing: both the
empty chain and every singleton chain — whatever the block's fields — make
`is_chain_valid` return true, since the loop over `range(1, len(chain))` is
empty. -/
theorem short_chain_always_valid (h : HashFn) (s : Blockchain) (b : Block) :
    is_chain_valid h s (some []) = true ∧ is_chain_valid h s (some [b]) = true :=
  ⟨rfl, rfl⟩

/-- C1 counterexample: a two-block chain whose adjacent pair satisfies the
three hash conditions (stored hash equals recomputed hash, linkage, difficulty
target) but whose indices jump from 0 to 5 is still accepted by
`is_chain_valid` — the index-consecutiveness invariant is never checked, so
the claim that such a chain is rejected is false. -/
theorem is_chain_valid_no_index_check :
    Block.hash constHash ⟨5, [], 0, "0000", 7, some "0000"⟩
        = calculate_hash constHash ⟨5, [], 0, "0000", 7, some "0000"⟩ ∧
    (Block.previous_hash ⟨5, [], 0, "0000", 7, some "0000"⟩
        = Block.hash constHash gBlock) ∧
    str_take (Block.hash constHash ⟨5, [], 0, "0000", 7, some "0000"⟩) 4 = zeros 4 ∧
    Block.index (⟨5, [], 0, "0000", 7, some "0000"⟩ : Block) ≠ gBlock.index + 1 ∧
    is_chain_valid constHash sInit (some [gBlock, ⟨5, [], 0, "0000", 7, some "0000"⟩])
        = true := by
  decide

/-- C1 (amended): `is_chain_valid` — over the given chain, or the ledger's own
chain when the argument is omitted — returns true exactly when every adjacent
pair satisfies the three checked invariants (recomputed hash equals stored
hash, `previous_hash` linkage, difficulty leading-zero target); the
`cur.index = prev.index + 1` invariant of the specification is not checked. -/
theorem is_chain_valid_iff_pairwise (h : HashFn) (s : Blockchain)
    (chain : Option (List Block)) :
    is_chain_valid h s chain = true ↔
      List.Chain' (fun p q => valid_pair h s.difficulty p q = true)
        (chain.getD s.chain) :=
  chain_valid_iff h s.difficulty (chain.getD s.chain)

/-- C9: no check is ever applied to the block at position 0: a chain whose
first block's hash misses the difficulty target still validates provided every
adjacent pair passes the three checks, and replacing the first block by any
block with the same `hash` value (its other fields arbitrary) does not change
the verdict.  Both the own-chain path of `is_chain_valid` and the remote-chain
path of `resolve_conflicts` run this same `chain_valid` loop. -/
theorem genesis_exempt_from_checks (h : HashFn) (d : Nat) (b0 b0' : Block)
    (rest : List Block)
    (hlow : str_take (Block.hash h b0) d ≠ zeros d)
    (hhash : Block.hash h b0' = Block.hash h b0)
    (hpairs : List.Chain' (fun p q => valid_pair h d p q = true) (b0 :: rest)) :
    chain_valid h d (b0 :: rest) = true ∧
    chain_valid h d (b0' :: rest) = chain_valid h d (b0 :: rest) := by
  refine ⟨(chain_valid_iff h d (b0 :: rest)).mpr hpairs, ?_⟩
  cases rest with
  | nil => rfl
  | cons c r => simp [chain_valid, valid_pair, hhash]

/-- C9 witness: under `constHash` with difficulty 4, the first block's stored
hash `"abcd"` misses the target, the second block passes all three checks, and
the chain validates; changing the first block's nonce leaves the verdict
unchanged. -/
theorem genesis_exempt_from_checks_witness :
    chain_valid constHash 4 [⟨0, [], 0, "0", 5, some "abcd"⟩, ⟨1, [], 0, "abcd", 0, some "0000"⟩] = true ∧
    chain_valid constHash 4 [⟨0, [], 0, "0", 99, some "abcd"⟩, ⟨1, [], 0, "abcd", 0, some "0000"⟩]
      = chain_valid constHash 4 [⟨0, [], 0, "0", 5, some "abcd"⟩, ⟨1, [], 0, "abcd", 0, some "0000"⟩] :=
  genesis_exempt_from_checks constHash 4 ⟨0, [], 0, "0", 5, some "abcd"⟩
    ⟨0, [], 0, "0", 99, some "abcd"⟩ [⟨1, [], 0, "abcd", 0, some "0000"⟩]
    (by decide) (by decide)
    (List.chain'_cons.mpr ⟨by decide, List.chain'_singleton _⟩)

/-- Characterisation of a terminating proof-of-work run: every field except
the nonce and the cache is preserved, and the sealed block's stored hash meets
the difficulty target. -/
theorem mine_block_spec (h : HashFn) (d : Nat) (fuel : Nat) (b b' : Block)
    (hm : mine_block h d fuel b = some b') :
    str_take (Block.hash h b') d = zeros d ∧ b'.index = b.index ∧
    b'.transactions = b.transactions ∧ b'.timestamp = b.timestamp ∧
    b'.previous_hash = b.previous_hash := by
  induction fuel generalizing b with
  | zero =>
    rw [mine_block] at hm
    by_cases hc : str_take (Block.hash h b) d = zeros d
    · rw [if_pos hc] at hm
      injection hm with hb'
      subst hb'
      exact ⟨hc, rfl, rfl, rfl, rfl⟩
    · rw [if_neg hc] at hm
      exact Option.noConfusion hm
  | succ f ih =>
    rw [mine_block] at hm
    by_cases hc : str_take (Block.hash h b) d = zeros d
    · rw [if_pos hc] at hm
      injection hm with hb'
      subst hb'
      exact ⟨hc, rfl, rfl, rfl, rfl⟩
    · rw [if_neg hc] at hm
      have hspec := ih { b with nonce := b.nonce + 1, hashCache := none } hm
      exact ⟨hspec.1, hspec.2.1, hspec.2.2.1, hspec.2.2.2.1, hspec.2.2.2.2⟩

/-- Characterisation of a terminating `mine_pending_transactions` run: the
sealed block is appended, the pool is drained, the sealed transactions are the
pool snapshot plus the reward, the stored hash meets the target, and the
scalar fields of the ledger are untouched. -/
theorem mine_pending_spec (h : HashFn) (fuel : Nat) (s : Blockchain)
    (addr : String) (t1 t2 : Nat) (s' : Blockchain) (b : Block)
    (hm : mine_pending_transactions h fuel s addr t1 t2 = some (s', b)) :
    s'.chain = s.chain ++ [b] ∧ s'.current_transactions = [] ∧
    b.transactions = s.current_transactions ++ [⟨none, addr, s.mining_reward, t1⟩] ∧
    str_take (Block.hash h b) s.difficulty = zeros s.difficulty ∧
    s'.difficulty = s.difficulty ∧ s'.mining_reward = s.mining_reward ∧
    s'.nodes = s.nodes := by
  unfold mine_pending_transactions at hm
  split at hm
  next => exact Option.noConfusion hm
  next tip htip =>
    split at hm
    next => exact Option.noConfusion hm
    next b0 hmb =>
      injection hm with hp
      injection hp with hs' hb
      subst hb
      subst hs'
      have hspec := mine_block_spec h s.difficulty fuel _ _ hmb
      exact ⟨rfl, rfl, hspec.2.2.1, hspec.1, rfl, rfl, rfl⟩

/-- C6: whenever `mine_pending_transactions` returns, the sealed block's
stored hash has at least `difficulty` leading hex zero characters, the block
is appended as the new tip (the chain grows by exactly one block), and the
pending pool is empty afterwards. -/
theorem mine_pending_transactions_success_spec (h : HashFn) (fuel : Nat)
    (s : Blockchain) (addr : String) (t1 t2 : Nat) (s' : Blockchain) (b : Block)
    (hm : mine_pending_transactions h fuel s addr t1 t2 = some (s', b)) :
    str_take (Block.hash h b) s.difficulty = zeros s.difficulty ∧
    s'.chain = s.chain ++ [b] ∧
    s'.chain.length = s.chain.length + 1 ∧
    s'.current_transactions = [] := by
  have hspec := mine_pending_spec h fuel s addr t1 t2 s' b hm
  refine ⟨hspec.2.2.2.1, hspec.1, ?_, hspec.2.1⟩
  rw [hspec.1]
  simp

/-- C6 witness: mining the one-transaction pool of `sPend` under `constHash`
succeeds immediately and exhibits all three conclusions. -/
theorem mine_pending_transactions_success_spec_witness :
    str_take (Block.hash constHash bMinedPend) sPend.difficulty
        = zeros sPend.difficulty ∧
    sMinedPend.chain = sPend.chain ++ [bMinedPend] ∧
    sMinedPend.chain.length = sPend.chain.length + 1 ∧
    sMinedPend.current_transactions = [] :=
  mine_pending_transactions_success_spec constHash 0 sPend "addr1" 2 3
    sMinedPend bMinedPend (by decide)

/-- C4 counterexample: on the genesis-only ledger with an empty pending pool,
`mine_pending_transactions` does not fail — it returns a sealed block
(containing only the reward transaction) and appends it to the chain. -/
theorem mine_pending_transactions_empty_pool_mines :
    sInit.current_transactions = [] ∧
    mine_pending_transactions constHash 0 sInit "addr1" 0 1
        = some (sMinedEmpty, bMinedEmpty) := by
  decide

/-- C4 (amended): `mine_pending_transactions` itself performs no empty-pool
check: called on an empty pool it still seals and appends a block whose only
transaction is the mining reward.  The `EmptyPool` rejection of the
specification is enforced by the route handlers (`/api/mine`, `/mine_block`),
modelled by `api_mine`, before the ledger method is reached. -/
theorem mine_pending_transactions_no_empty_check (h : HashFn) (fuel : Nat)
    (s : Blockchain) (addr : String) (t1 t2 : Nat) (s' : Blockchain) (b : Block)
    (hpool : s.current_transactions = [])
    (hm : mine_pending_transactions h fuel s addr t1 t2 = some (s', b)) :
    s'.chain = s.chain ++ [b] ∧
    b.transactions = [⟨none, addr, s.mining_reward, t1⟩] ∧
    api_mine h fuel s addr t1 t2 = none := by
  have hspec := mine_pending_spec h fuel s addr t1 t2 s' b hm
  refine ⟨hspec.1, ?_, ?_⟩
  · rw [hspec.2.2.1, hpool]
    rfl
  · simp [api_mine, hpool]

/-- C4 witness: the empty-pool mining run on `sInit` under `constHash`
satisfies the amended conclusions, and `api_mine` rejects that same state. -/
theorem mine_pending_transactions_no_empty_check_witness :
    sMinedEmpty.chain = sInit.chain ++ [bMinedEmpty] ∧
    bMinedEmpty.transactions = [⟨none, "addr1", (10 : Int), 0⟩] ∧
    api_mine constHash 0 sInit "addr1" 0 1 = none :=
  mine_pending_transactions_no_empty_check constHash 0 sInit "addr1" 0 1
    sMinedEmpty bMinedEmpty (by decide) (by decide)

/-- The inner loop of `get_balance` adds each transaction's net effect. -/
theorem balance_foldl_tx (address : String) (l : List Transaction) (init : Int) :
    l.foldl
      (fun balance transaction =>
        let balance :=
          if transaction.sender = some address then balance - transaction.amount
          else balance
        if transaction.recipient = address then balance + transaction.amount
        else balance)
      init = init + (l.map (tx_delta address)).sum := by
  induction l generalizing init with
  | nil => simp
  | cons t l ih =>
    simp only [List.foldl_cons, List.map_cons, List.sum_cons]
    rw [ih]
    simp only [tx_delta]
    split_ifs <;> ring

/-- The outer loop of `get_balance` accumulates over the flattened
transaction history. -/
theorem balance_foldl_blocks (address : String) (bs : List Block) (init : Int) :
    bs.foldl
      (fun balance block =>
        block.transactions.foldl
          (fun balance transaction =>
            let balance :=
              if transaction.sender = some address then balance - transaction.amount
              else balance
            if transaction.recipient = address then balance + transaction.amount
            else balance)
          balance)
      init = init + (((bs.map Block.transactions).flatten).map (tx_delta address)).sum := by
  induction bs generalizing init with
  | nil => simp
  | cons b bs ih =>
    simp only [List.foldl_cons, List.map_cons, List.flatten]
    rw [balance_foldl_tx, ih]
    simp [List.map_append, List.sum_append]
    ring

/-- `get_balance` is the sum of the per-transaction net effects over the
chain's flattened transaction history. -/
theorem get_balance_eq (s : Blockchain) (address : String) :
    get_balance s address
      = (((s.chain.map Block.transactions).flatten).map (tx_delta address)).sum := by
  have hfold := balance_foldl_blocks address s.chain 0
  simpa [get_balance] using hfold

/-- Net effects split into received minus sent sums. -/
theorem delta_sum_eq (address : String) (l : List Transaction) :
    (l.map (tx_delta address)).sum
      = recipient_sum address l - sender_sum address l := by
  induction l with
  | nil => simp [recipient_sum, sender_sum]
  | cons t l ih =>
    simp only [List.map_cons, List.sum_cons, recipient_sum, sender_sum,
      List.filter_cons, decide_eq_true_eq] at ih ⊢
    rw [ih, tx_delta]
    split_ifs
    all_goals try simp only [List.map_cons, List.sum_cons]
    all_goals ring

/-- C7: for every address and ledger state, `get_balance` equals R - S where
R sums the amounts of sealed transactions received by the address and S the
amounts sent by it; transactions still in the pending pool contribute
nothing, and any ledger whose flattened sealed-transaction history is a
permutation of this one (blocks reordered, transactions reordered within
blocks) yields the same balance. -/
theorem get_balance_spec (s : Blockchain) (address : String) :
    get_balance s address
      = recipient_sum address ((s.chain.map Block.transactions).flatten)
        - sender_sum address ((s.chain.map Block.transactions).flatten) ∧
    (∀ pool : List Transaction,
      get_balance { s with current_transactions := pool } address
        = get_balance s address) ∧
    (∀ s' : Blockchain,
      List.Perm ((s'.chain.map Block.transactions).flatten)
        ((s.chain.map Block.transactions).flatten) →
      get_balance s' address = get_balance s address) := by
  refine ⟨?_, fun pool => rfl, ?_⟩
  · rw [get_balance_eq, delta_sum_eq]
  · intro s' hperm
    rw [get_balance_eq, get_balance_eq]
    exact List.Perm.sum_eq (hperm.map (tx_delta address))

/-- C7 witness: the two-block ledgers `sOrd` and `sRev` hold the same sealed
transactions in opposite block orders and give "B" the same balance. -/
theorem get_balance_spec_witness :
    get_balance sRev "B" = get_balance sOrd "B" :=
  (get_balance_spec sOrd "B").2.2 sRev
    (List.Perm.swap txAB ⟨some "B", "C", 2, 0⟩ [])

/-- C5 counterexample: `add_transaction` called with the non-positive amount
-5 does not fail — it appends the transaction to the previously empty pending
pool. -/
theorem add_transaction_negative_amount_appends :
    sInit.current_transactions = [] ∧
    (add_transaction sInit (some "A") "B" (-5) 0).1.current_transactions
      = [⟨some "A", "B", -5, 0⟩] := by
  decide

/-- C5 (amended): `add_transaction` itself performs no amount validation: for
every amount, including non-positive ones, it appends the transaction to the
pending pool and leaves the chain unchanged.  The `InvalidTransaction`
rejection of non-positive amounts is enforced by the HTTP layer
(`/api/transactions` POST and the form handler), modelled by
`api_transactions_post`, which rejects and leaves the state untouched. -/
theorem add_transaction_no_validation (s : Blockchain) (sender recipient : String)
    (amount : Int) (t : Nat) :
    (add_transaction s (some sender) recipient amount t).1.current_transactions
      = s.current_transactions ++ [⟨some sender, recipient, amount, t⟩] ∧
    (add_transaction s (some sender) recipient amount t).1.chain = s.chain ∧
    (amount ≤ 0 → api_transactions_post s sender recipient amount t = (s, none)) := by
  refine ⟨rfl, rfl, fun hneg => ?_⟩
  simp [api_transactions_post, hneg]

/-- C5 witness: with amount -3 the pool grows by the transaction while the
HTTP-level submission on the same state is rejected unchanged. -/
theorem add_transaction_no_validation_witness :
    (add_transaction sInit (some "A") "B" (-3) 0).1.current_transactions
      = sInit.current_transactions ++ [⟨some "A", "B", -3, 0⟩] ∧
    (add_transaction sInit (some "A") "B" (-3) 0).1.chain = sInit.chain ∧
    api_transactions_post sInit "A" "B" (-3) 0 = (sInit, none) :=
  ⟨(add_transaction_no_validation sInit "A" "B" (-3) 0).1,
   (add_transaction_no_validation sInit "A" "B" (-3) 0).2.1,
   (add_transaction_no_validation sInit "A" "B" (-3) 0).2.2 (by decide)⟩

/-- One peer-loop iteration never decreases the running `max_length`. -/
theorem consider_fst_le (h : HashFn) (d : Nat) (acc : Nat × Option (List Block))
    (r : Option PeerResponse) : acc.1 ≤ (consider_response h d acc r).1 := by
  cases r with
  | none => exact Nat.le_refl _
  | some resp =>
    simp only [consider_response]
    split_ifs with hc
    · exact Nat.le_of_lt hc.1
    · exact Nat.le_refl _

/-- The peer loop never decreases the running `max_length`. -/
theorem foldl_consider_fst_le (h : HashFn) (d : Nat)
    (rs : List (Option PeerResponse)) (acc : Nat × Option (List Block)) :
    acc.1 ≤ (rs.foldl (consider_response h d) acc).1 := by
  induction rs generalizing acc with
  | nil => exact Nat.le_refl _
  | cons r rs ih =>
    exact Nat.le_trans (consider_fst_le h d acc r) (ih (consider_response h d acc r))

/-- Whenever the peer loop ends with a recorded candidate, that candidate is
either the one it started with or the decoded chain of some response in the
list whose reported length beat the starting `max_length` and whose decoded
chain validates. -/
theorem foldl_consider_some (h : HashFn) (d : Nat)
    (rs : List (Option PeerResponse)) (acc : Nat × Option (List Block))
    (c : List Block)
    (hres : (rs.foldl (consider_response h d) acc).2 = some c) :
    acc.2 = some c ∨
    ∃ resp : PeerResponse, some resp ∈ rs ∧ c = resp.chain.map block_of_data ∧
      chain_valid h d c = true ∧ acc.1 < resp.length := by
  induction rs generalizing acc with
  | nil => exact Or.inl hres
  | cons r rs ih =>
    rcases ih (consider_response h d acc r) hres with hco | ⟨resp, hmem, hc, hv, hlt⟩
    · cases r with
      | none => exact Or.inl hco
      | some resp =>
        by_cases hcond : acc.1 < resp.length ∧
            chain_valid h d (resp.chain.map block_of_data) = true
        · right
          simp only [consider_response, if_pos hcond] at hco
          have hceq : c = resp.chain.map block_of_data := (Option.some.inj hco).symm
          refine ⟨resp, List.mem_cons_self _ _, hceq, ?_, hcond.1⟩
          rw [hceq]
          exact hcond.2
        · simp only [consider_response, if_neg hcond] at hco
          exact Or.inl hco
    · exact Or.inr ⟨resp, List.mem_cons_of_mem _ hmem,
        hc, hv, Nat.lt_of_le_of_lt (consider_fst_le h d acc r) hlt⟩

/-- Each consensus resolution either keeps the state or installs a non-empty
decoded chain. -/
theorem resolve_chain_cases (h : HashFn) (s : Blockchain)
    (rs : List (Option PeerResponse)) :
    (resolve_conflicts h s rs).1 = s ∨ (resolve_conflicts h s rs).1.chain ≠ [] := by
  unfold resolve_conflicts
  cases (rs.foldl (consider_response h s.difficulty) (s.chain.length, none)).2 with
  | none => exact Or.inl rfl
  | some c =>
    by_cases hemp : c.isEmpty
    · simp [hemp]
    · right
      simp only [hemp, Bool.false_eq_true, if_false]
      simpa [List.isEmpty_iff] using hemp

/-- C2 (amended): `resolve_conflicts` reports no replacement exactly when it
leaves the state untouched; when it reports a replacement, the new chain is
the decoded (hence non-empty) chain of some fetched response whose
self-reported `length` field — not the decoded chain's block count — exceeds
the local chain's length, that decoded chain passes validation, and the
pending pool is untouched. -/
theorem resolve_conflicts_spec (h : HashFn) (s : Blockchain)
    (rs : List (Option PeerResponse)) :
    ((resolve_conflicts h s rs).2 = false → (resolve_conflicts h s rs).1 = s) ∧
    ((resolve_conflicts h s rs).2 = true →
      (resolve_conflicts h s rs).1.current_transactions = s.current_transactions ∧
      ∃ resp : PeerResponse, some resp ∈ rs ∧
        (resolve_conflicts h s rs).1.chain = resp.chain.map block_of_data ∧
        (resolve_conflicts h s rs).1.chain ≠ [] ∧
        s.chain.length < resp.length ∧
        chain_valid h s.difficulty (resp.chain.map block_of_data) = true) := by
  unfold resolve_conflicts
  cases hres : (rs.foldl (consider_response h s.difficulty) (s.chain.length, none)).2 with
  | none => simp
  | some c =>
    dsimp only
    by_cases hemp : c.isEmpty = true
    · rw [if_pos hemp]
      simp
    · rw [if_neg hemp]
      rcases foldl_consider_some h s.difficulty rs (s.chain.length, none) c hres with
        h0 | ⟨resp, hmem, hc, hv, hlt⟩
      · exact Option.noConfusion h0
      · have hne : c ≠ [] := by
          intro hnil
          rw [hnil] at hemp
          exact hemp rfl
        constructor
        · intro hfalse
          exact absurd hfalse (by simp)
        · intro htrue
          refine ⟨rfl, resp, hmem, hc, hne, hlt, ?_⟩
          rw [← hc]
          exact hv

/-- C2 witness: with a single response whose reported length 0 cannot beat the
local chain, resolution reports no replacement and returns the state
unchanged. -/
theorem resolve_conflicts_spec_witness :
    (resolve_conflicts constHash sInit [some respZero]).1 = sInit :=
  (resolve_conflicts_spec constHash sInit [some respZero]).1 (by decide)

/-- C2 counterexample: a candidate whose decoded chain has no more blocks
than the local chain (one block against the genesis chain) still replaces the
local chain, because its self-reported `length` field is 5: the local blocks
and tip change even though the candidate is not strictly longer. -/
theorem resolve_conflicts_shorter_candidate_replaces :
    (respOneBlock.chain.map block_of_data).length ≤ sInit.chain.length ∧
    (resolve_conflicts constHash sInit [some respOneBlock]).2 = true ∧
    (resolve_conflicts constHash sInit [some respOneBlock]).1.chain ≠ sInit.chain := by
  decide

/-- C3 (amended): consensus compares the response's self-reported `length`
field, not the decoded list's block count: any single response whose `length`
field exceeds the local chain length and whose decoded chain validates
replaces the local chain provided the decoded list is non-empty — even if it
holds no more blocks than the local chain; when the decoded list is empty the
replacement is skipped (`if new_chain:` is falsy on the empty list), so the
claim's "may even be empty" case does not occur. -/
theorem resolve_conflicts_uses_reported_length (h : HashFn) (s : Blockchain)
    (resp : PeerResponse)
    (hlen : s.chain.length < resp.length)
    (hvalid : chain_valid h s.difficulty (resp.chain.map block_of_data) = true) :
    (resp.chain ≠ [] →
      resolve_conflicts h s [some resp]
        = ({ s with chain := resp.chain.map block_of_data }, true)) ∧
    (resp.chain = [] → resolve_conflicts h s [some resp] = (s, false)) := by
  constructor
  · intro hne
    unfold resolve_conflicts
    simp only [List.foldl_cons, List.foldl_nil, consider_response,
      if_pos (And.intro hlen hvalid)]
    have hemp : (resp.chain.map block_of_data).isEmpty = false := by
      simpa [List.isEmpty_iff] using hne
    simp [hemp]
  · intro hnil
    unfold resolve_conflicts
    simp [List.foldl_cons, List.foldl_nil, consider_response, hnil, hlen, chain_valid]

/-- C3 witness: the response reporting length 5 with a single decoded block
replaces the genesis-only local chain. -/
theorem resolve_conflicts_uses_reported_length_witness :
    resolve_conflicts constHash sInit [some respOneBlock]
      = ({ sInit with chain := respOneBlock.chain.map block_of_data }, true) :=
  (resolve_conflicts_uses_reported_length constHash sInit respOneBlock
    (by decide) (by decide)).1 (by decide)

/-- C3 counterexample: a response whose `length` field (5) exceeds the local
chain length and whose decoded chain — being empty — passes validation does
NOT replace the local chain: the empty list is falsy, so resolution returns
the state unchanged and reports no replacement. -/
theorem resolve_conflicts_empty_list_not_replaced :
    sInit.chain.length < respEmpty.length ∧
    chain_valid constHash sInit.difficulty (respEmpty.chain.map block_of_data) = true ∧
    resolve_conflicts constHash sInit [some respEmpty] = (sInit, false) := by
  decide

/-- A non-empty list has a last element. -/
theorem getLast?_isSome_of_ne_nil (l : List Block) (hne : l ≠ []) :
    l.getLast?.isSome = true := by
  cases l with
  | nil => exact absurd rfl hne
  | cons a l => simp [List.getLast?_cons]

/-- C8: the chain is non-empty in every state reachable after construction —
construction installs the genesis block and transaction submission, mining,
peer registration and consensus resolution (with arbitrary fetched responses)
all preserve non-emptiness (validation and balance queries do not mutate the
state at all) — so `get_latest_block` always returns a block. -/
theorem reachable_chain_nonempty (h : HashFn) (s : Blockchain)
    (hr : Reachable h s) :
    s.chain ≠ [] ∧ (get_latest_block s).isSome = true := by
  have hne : s.chain ≠ [] := by
    induction hr with
    | init t => simp [Blockchain.init]
    | add_tx s sender recipient amount t hr ih => exact ih
    | mine s s' b fuel addr t1 t2 hr hm ih =>
      have hchain := (mine_pending_spec h fuel s addr t1 t2 s' b hm).1
      rw [hchain]
      simp
    | register s s' netloc path hr hreg ih =>
      unfold register_node at hreg
      split_ifs at hreg with h1 h2
      · injection hreg with hs'
        rw [← hs']
        exact ih
      · injection hreg with hs'
        rw [← hs']
        exact ih
    | resolve s rs hr ih =>
      rcases resolve_chain_cases h s rs with hsame | hne'
      · rw [hsame]
        exact ih
      · exact hne'
  exact ⟨hne, getLast?_isSome_of_ne_nil s.chain hne⟩

/-- C8 witness: the freshly constructed ledger is reachable and its chain is
non-empty with a defined tip. -/
theorem reachable_chain_nonempty_witness :
    sInit.chain ≠ [] ∧ (get_latest_block sInit).isSome = true :=
  reachable_chain_nonempty constHash sInit (Reachable.init 0)
